import Mathlib

/-!
Verification of the pyMRA repository specification against a shallow
embedding of its code.

The repository under verification ships a setup script and the driver
script pyMRA/tests/test-MRA-data.py.  The driver script is embedded
directly below (namespace Script).  The MRA core (the MRATree class and
the MRATools helpers) is imported by the driver but its source is not
part of the repository snapshot; the parts of it that the claims need
are modelled from the specification (namespace MRA), with each such
definition marked by a doc comment starting with the words
Modelled from the spec.

Real/floating-point arithmetic of the numerical code is embedded over
the rationals, so every definition is executable.
-/

namespace Script

/-- One data row of the input CSV file, as parsed by the script:
fields are floats; the third field may be the string NA (missing
measurement, stored as numpy NaN and modelled here as none), and the
fourth field (the truth) may be absent. -/
structure Row where
  f0 : ℚ
  f1 : ℚ
  f2 : Option ℚ
  f3 : Option ℚ
  deriving DecidableEq, Repr

/-- csv = [line.strip().split(',') for line in ipFile.readlines()][1:]
the first line of the file is unconditionally dropped as a header. -/
def csvRows (file : List Row) : List Row := file.drop 1

/-- locs[idx, 1] = float(line[0]); locs[idx, 0] = float(line[1]) -
the first CSV field becomes the second coordinate and the second CSV
field the first coordinate. -/
def locsOf (file : List Row) : List (ℚ × ℚ) :=
  (csvRows file).map (fun r => (r.f1, r.f0))

/-- y_obs[idx, 0] = float(line[2]) if line[2] != NA else np.NAN.
Missingness is the none sentinel. -/
def yObsOf (file : List Row) : List (Option ℚ) :=
  (csvRows file).map (fun r => r.f2)

/-- obs_inds = np.isfinite(y_obs).flatten(): the boolean mask of
observed indices, derived once from the sentinel. -/
def obsIndsOf (file : List Row) : List Bool :=
  (yObsOf file).map (fun o => o.isSome)

/-- np.min of a column (nonempty in every run of the script; the empty
case is given a default so the embedding stays total). -/
def colMin : List ℚ → ℚ
  | [] => 0
  | x :: xs => xs.foldl min x

/-- np.max of a column. -/
def colMax : List ℚ → ℚ
  | [] => 0
  | x :: xs => xs.foldl max x

/-- locs[:,k] = locs[:,k] - np.min(locs[:,k]) -/
def shiftCol (xs : List ℚ) : List ℚ :=
  xs.map (fun v => v - colMin xs)

/-- locs[:,k] = locs[:,k] / np.max(locs[:,k]), applied after the shift:
the divisor is the maximum of the shifted column, with no guard. -/
def scaleCol (xs : List ℚ) : List ℚ :=
  xs.map (fun v => v / colMax xs)

/-- The full normalization of one coordinate column (lines 61-65 of the
script): subtract the minimum, then divide by the maximum of the
shifted values. -/
def normalizeCol (xs : List ℚ) : List ℚ :=
  scaleCol (shiftCol xs)

/-- The divisor used by the normalization of one column. -/
def normDivisor (xs : List ℚ) : ℚ :=
  colMax (shiftCol xs)

/-- len(np.unique(column)): the number of distinct values. -/
def numUnique (xs : List ℚ) : ℕ := xs.dedup.length

/-- The normalized first coordinate column of the script. -/
def normCol0 (file : List Row) : List ℚ :=
  normalizeCol ((locsOf file).map Prod.fst)

/-- The normalized second coordinate column of the script. -/
def normCol1 (file : List Row) : List ℚ :=
  normalizeCol ((locsOf file).map Prod.snd)

/-- Nx = len(np.unique(locs[:,0])), computed on the normalized columns. -/
def NxOf (file : List Row) : ℕ := numUnique (normCol0 file)

/-- Ny = len(np.unique(locs[:,1])), computed on the normalized columns. -/
def NyOf (file : List Row) : ℕ := numUnique (normCol1 file)

/-- The statements of the main block of test-MRA-data.py, in source
order.  sys.exit() at line 79 sits between the display of the
observations and the MRA section. -/
inductive Stmt where
  | seedRng
  | readFile
  | parseRows
  | normalizeLocs
  | computeGrid
  | centerObs
  | computeMask
  | dispObs
  | sysExit
  | buildTree
  | callPredict
  | savePred
  | dispResults
  deriving DecidableEq, Repr

/-- The main block as the ordered list of its statements. -/
def mainProgram : List Stmt :=
  [Stmt.seedRng, Stmt.readFile, Stmt.parseRows, Stmt.normalizeLocs,
   Stmt.computeGrid, Stmt.centerObs, Stmt.computeMask, Stmt.dispObs,
   Stmt.sysExit, Stmt.buildTree, Stmt.callPredict, Stmt.savePred,
   Stmt.dispResults]

/-- Straight-line execution that stops at the first sys.exit(): the
statements actually executed are the prefix up to and including it.
The script has no branch or loop guarding any statement before the
exit, so the executed trace is the same on every input file. -/
def executedTrace (p : List Stmt) : List Stmt :=
  p.takeWhile (fun s => s ≠ Stmt.sysExit) ++
    (if Stmt.sysExit ∈ p then [Stmt.sysExit] else [])

/-- The trace of a run of the script on a given input file. -/
def runTrace (_file : List Row) : List Stmt :=
  executedTrace mainProgram

end Script

namespace MRA

/-- Modelled from the spec: the source of pyMRA.MRATree is not in the
repository snapshot.  The construction input of the tree is exactly
the tuple (locations, M, J, r0, critDepth, covarianceFn, observations,
measurementErrorVariance); the covariance function is the opaque
kernel cov(locs1, locs2) -> matrix, modelled pointwise, observations
are scalars-or-missing and R is a scalar. -/
structure Config where
  locs : List (ℚ × ℚ)
  M : ℕ
  J : ℕ
  r0 : ℕ
  critDepth : ℕ
  cov : (ℚ × ℚ) → (ℚ × ℚ) → ℚ
  obs : List (Option ℚ)
  R : ℚ

/-- Modelled from the spec: the KnotSelector of the missing core
deterministically selects up to r0 of the point indices assigned to a
node as its knots. -/
def knotSelect (r0 : ℕ) (idxs : List ℕ) : List ℕ := idxs.take r0

/-- Modelled from the spec: the point indices a node passes on to its
children (or keeps as leaf residuals): those assigned to it and not
claimed by its own knot set. -/
def residualOf (r0 : ℕ) (idxs : List ℕ) : List ℕ := idxs.drop r0

/-- Modelled from the spec: the SpatialPartitioner of the missing core
splits the points assigned to a node into J groups, one per child;
the groups cover the input and are pairwise disjoint. -/
def splitJ : ℕ → List ℕ → List (List ℕ)
  | 0, _ => []
  | 1, idxs => [idxs]
  | Nat.succ (Nat.succ j), idxs =>
      let k := idxs.length / (j + 2)
      idxs.take k :: splitJ (j + 1) (idxs.drop k)

/-- Modelled from the spec: a tree node holds its knot index set; an
internal node holds its J children, a leaf additionally holds its
residual (non-knot) point indices directly. -/
inductive MTree where
  | leaf (knots residual : List ℕ)
  | node (knots : List ℕ) (children : List MTree)
  deriving Repr

/-- Modelled from the spec: recursive skeleton construction of the
missing core.  A node selects its knots from the indices assigned to
it; at depth 0 (a leaf) the remaining indices stay as the leaf's
residual set, otherwise they are partitioned among the J children. -/
def buildRec (J r0 : ℕ) : ℕ → List ℕ → MTree
  | 0, idxs => MTree.leaf (knotSelect r0 idxs) (residualOf r0 idxs)
  | Nat.succ d, idxs =>
      MTree.node (knotSelect r0 idxs)
        ((splitJ J (residualOf r0 idxs)).map (buildRec J r0 d))

/-- Modelled from the spec: the effective leaf depth of the tree: M
levels of recursion, capped by critDepth (nodes below critDepth are
leaves; in usage critDepth = M + 1). -/
def effDepth (cfg : Config) : ℕ := min cfg.M (cfg.critDepth - 1)

/-- Modelled from the spec: the tree skeleton built once per
configuration, on the index set 0..N-1 of the original locations. -/
def buildTree (cfg : Config) : MTree :=
  buildRec cfg.J cfg.r0 (effDepth cfg) (List.range cfg.locs.length)

/-- All original location indices held by a subtree: each node's knot
set, plus each leaf's residual set, in traversal order. -/
def allIndices : MTree → List ℕ
  | MTree.leaf k r => k ++ r
  | MTree.node k cs => k ++ (cs.attach.map (fun c => allIndices c.1)).flatten
  termination_by t => sizeOf t
  decreasing_by
    have h := List.sizeOf_lt_of_mem c.2
    simp only [MTree.node.sizeOf_spec]
    omega

theorem allIndices_leaf (k r : List ℕ) :
    allIndices (MTree.leaf k r) = k ++ r := by
  rw [allIndices]

theorem allIndices_node (k : List ℕ) (cs : List MTree) :
    allIndices (MTree.node k cs) = k ++ (cs.map allIndices).flatten := by
  rw [allIndices]
  congr 1
  rw [List.attach_map_coe]

theorem splitJ_flatten (J : ℕ) (hJ : 1 ≤ J) :
    ∀ idxs : List ℕ, (splitJ J idxs).flatten = idxs := by
  induction J with
  | zero => omega
  | succ j ih =>
      intro idxs
      match j with
      | 0 => simp [splitJ]
      | Nat.succ j2 =>
          rw [splitJ, List.flatten_cons, ih (by omega)]
          exact List.take_append_drop _ idxs

theorem allIndices_buildRec (J r0 : ℕ) (hJ : 1 ≤ J) :
    ∀ (d : ℕ) (idxs : List ℕ), allIndices (buildRec J r0 d idxs) = idxs := by
  intro d
  induction d with
  | zero =>
      intro idxs
      rw [buildRec, allIndices_leaf, knotSelect, residualOf]
      exact List.take_append_drop _ idxs
  | succ d ih =>
      intro idxs
      rw [buildRec, allIndices_node, List.map_map]
      have hmap : (splitJ J (residualOf r0 idxs)).map (allIndices ∘ buildRec J r0 d)
          = splitJ J (residualOf r0 idxs) := by
        have h2 : (splitJ J (residualOf r0 idxs)).map (allIndices ∘ buildRec J r0 d)
            = (splitJ J (residualOf r0 idxs)).map id :=
          List.map_congr_left (fun c _ => ih c)
        rw [h2, List.map_id]
      rw [hmap, splitJ_flatten J hJ, knotSelect, residualOf]
      exact List.take_append_drop _ idxs

/-- The location with a given index (indices are the stable identity
of the location set). -/
def locAt (cfg : Config) (i : ℕ) : ℚ × ℚ := cfg.locs.getD i (0, 0)

/-- The exact covariance between locations i and j under the supplied
kernel: the dense reference covariance. -/
def exactCov (cfg : Config) (i j : ℕ) : ℚ := cfg.cov (locAt cfg i) (locAt cfg j)

/-- Modelled from the spec: the boolean observation mask of the missing
core, as the list of observed (non-missing) location indices, derived
once from the sentinel. -/
def obsIdx (cfg : Config) : List ℕ :=
  (List.range cfg.locs.length).filter (fun i => (cfg.obs.getD i none).isSome)

/-- The observed values, in observed-index order. -/
def obsVal (cfg : Config) (a : Fin (obsIdx cfg).length) : ℚ :=
  (cfg.obs.getD ((obsIdx cfg).get a) none).getD 0

/-- Matrix inverse over the rationals via the adjugate, so that it is
executable; it agrees with the true inverse for invertible matrices
and is the numerical contract of the LinearAlgebraKernel solves. -/
def qInv {n : ℕ} (A : Matrix (Fin n) (Fin n) ℚ) : Matrix (Fin n) (Fin n) ℚ :=
  A.det⁻¹ • A.adjugate

/-- The covariance matrix of a list of indices under a covariance
function. -/
def covMat (S : ℕ → ℕ → ℚ) (K : List ℕ) :
    Matrix (Fin K.length) (Fin K.length) ℚ :=
  Matrix.of fun i j => S (K.get i) (K.get j)

/-- Modelled from the spec: the low-rank part of the covariance carried
by a node's knot set K: (cross-covariance with the knots) times (knot
covariance inverse) times (cross-covariance transposed). -/
def lowRank (S : ℕ → ℕ → ℚ) (K : List ℕ) (s t : ℕ) : ℚ :=
  ∑ i : Fin K.length, ∑ j : Fin K.length,
    S s (K.get i) * qInv (covMat S K) i j * S (K.get j) t

/-- Modelled from the spec: the conditional-Gaussian update of section
4.4: conditional covariance = covariance minus the low-rank part
explained by the knots. -/
def condMinus (S : ℕ → ℕ → ℚ) (K : List ℕ) : ℕ → ℕ → ℚ :=
  fun a b => S a b - lowRank S K a b

/-- Modelled from the spec: the covariance implied by the MRA tree,
built by the same recursion as the skeleton.  An internal node
contributes the low-rank knot part at its resolution, and two indices
falling in the same child add that child's contribution under the
conditional covariance; a leaf stores the low-rank knot block plus the
full conditional covariance block of its points given its knots. -/
def mraCovRec (J r0 : ℕ) : ℕ → (ℕ → ℕ → ℚ) → List ℕ → ℕ → ℕ → ℚ
  | 0, S, idxs => fun s t =>
      lowRank S (knotSelect r0 idxs) s t + condMinus S (knotSelect r0 idxs) s t
  | Nat.succ d, S, idxs => fun s t =>
      lowRank S (knotSelect r0 idxs) s t +
      ((splitJ J (residualOf r0 idxs)).map
        (fun c =>
          if s ∈ c ∧ t ∈ c then
            mraCovRec J r0 d (condMinus S (knotSelect r0 idxs)) c s t
          else 0)).sum

/-- The covariance function a configuration's MRA tree implies on the
original location indices. -/
def mraCov (cfg : Config) : ℕ → ℕ → ℚ :=
  mraCovRec cfg.J cfg.r0 (effDepth cfg) (exactCov cfg) (List.range cfg.locs.length)

/-- The observation covariance matrix under a prior covariance S: the
covariance of the observed indices with the scalar measurement error
variance R added on the diagonal. -/
def obsCovMat (cfg : Config) (S : ℕ → ℕ → ℚ) :
    Matrix (Fin (obsIdx cfg).length) (Fin (obsIdx cfg).length) ℚ :=
  Matrix.of fun a b =>
    S ((obsIdx cfg).get a) ((obsIdx cfg).get b) + if a = b then cfg.R else 0

/-- Gaussian-process kriging mean at index i under prior covariance S:
cross-covariance with the observed set times the inverse observation
covariance times the observed values. -/
def krigMeanAt (cfg : Config) (S : ℕ → ℕ → ℚ) (i : ℕ) : ℚ :=
  ∑ a : Fin (obsIdx cfg).length, ∑ b : Fin (obsIdx cfg).length,
    S i ((obsIdx cfg).get a) * qInv (obsCovMat cfg S) a b * obsVal cfg b

/-- Gaussian-process kriging variance at index i under prior
covariance S. -/
def krigVarAt (cfg : Config) (S : ℕ → ℕ → ℚ) (i : ℕ) : ℚ :=
  S i i - ∑ a : Fin (obsIdx cfg).length, ∑ b : Fin (obsIdx cfg).length,
    S i ((obsIdx cfg).get a) * qInv (obsCovMat cfg S) a b * S ((obsIdx cfg).get b) i

/-- Modelled from the spec: the posterior mean vector assembled by
predict() of the missing core, one entry per original location index,
in input order, kriged under the MRA-implied covariance. -/
def posteriorMean (cfg : Config) : List ℚ :=
  (List.range cfg.locs.length).map (krigMeanAt cfg (mraCov cfg))

/-- Modelled from the spec: the posterior variance vector of the
missing core, one entry per original location index, in input order. -/
def posteriorVar (cfg : Config) : List ℚ :=
  (List.range cfg.locs.length).map (krigVarAt cfg (mraCov cfg))

/-- Modelled from the spec: exact dense Gaussian-process kriging mean
with the same covariance function and the same noise variance R - the
dense reference computation of section 8. -/
def denseMean (cfg : Config) : List ℚ :=
  (List.range cfg.locs.length).map (krigMeanAt cfg (exactCov cfg))

/-- Modelled from the spec: exact dense Gaussian-process kriging
variance with the same covariance function and noise variance R. -/
def denseVar (cfg : Config) : List ℚ :=
  (List.range cfg.locs.length).map (krigVarAt cfg (exactCov cfg))

/-- Modelled from the spec: the output of predict(): two ordered
sequences aligned to the input location order, the posterior mean and
the posterior standard deviation (square root of the posterior
variance, hence real-valued). -/
noncomputable def predictOut (cfg : Config) : List ℝ × List ℝ :=
  ((posteriorMean cfg).map (fun q : ℚ => (q : ℝ)),
   (posteriorVar cfg).map (fun v : ℚ => Real.sqrt (v : ℝ)))

/-- Modelled from the spec: the lifecycle states of the tree. -/
inductive TreeState where
  | Unbuilt
  | SkeletonBuilt
  | PriorsComputed
  | PosteriorComputed
  | Ready
  deriving DecidableEq, Repr

/-- Modelled from the spec: the error taxonomy of section 7. -/
inductive MRAFailure where
  | ConfigurationError
  | PreconditionError
  | ArithmeticFailure
  deriving DecidableEq, Repr

/-- Modelled from the spec: the opaque tree handle - the baked-in
configuration together with the lifecycle state. -/
structure Handle where
  cfg : Config
  state : TreeState

/-- Modelled from the spec: the MRATree constructor.  It takes exactly
the tuple (locations, M, J, r0, critDepth, covarianceFn, observations,
measurementErrorVariance), runs the skeleton, prior and posterior
passes to completion and hands back the tree in the Ready state. -/
def mkMRATree (locs : List (ℚ × ℚ)) (M J r0 critDepth : ℕ)
    (cov : (ℚ × ℚ) → (ℚ × ℚ) → ℚ) (obs : List (Option ℚ)) (R : ℚ) : Handle :=
  { cfg := ⟨locs, M, J, r0, critDepth, cov, obs, R⟩, state := TreeState.Ready }

/-- Modelled from the spec: predict() takes nothing beyond the handle;
it is valid only in the Ready state and calling it earlier raises a
PreconditionError immediately; in the Ready state it returns the
complete output of predictOut. -/
noncomputable def predictChecked (h : Handle) :
    Except MRAFailure (List ℝ × List ℝ) :=
  if h.state = TreeState.Ready then Except.ok (predictOut h.cfg)
  else Except.error MRAFailure.PreconditionError

end MRA

namespace Script

theorem foldl_min_le_init (xs : List ℚ) : ∀ a : ℚ, xs.foldl min a ≤ a := by
  induction xs with
  | nil => intro a; simp
  | cons y ys ih =>
      intro a
      rw [List.foldl_cons]
      exact le_trans (ih (min a y)) (min_le_left a y)

theorem foldl_min_le_mem (xs : List ℚ) :
    ∀ (a x : ℚ), x ∈ xs → xs.foldl min a ≤ x := by
  induction xs with
  | nil => intro a x hx; cases hx
  | cons y ys ih =>
      intro a x hx
      rw [List.foldl_cons]
      rcases List.mem_cons.mp hx with h | h
      · subst h
        exact le_trans (foldl_min_le_init ys (min a x)) (min_le_right a x)
      · exact ih (min a y) x h

theorem le_foldl_max_init (xs : List ℚ) : ∀ a : ℚ, a ≤ xs.foldl max a := by
  induction xs with
  | nil => intro a; simp
  | cons y ys ih =>
      intro a
      rw [List.foldl_cons]
      exact le_trans (le_max_left a y) (ih (max a y))

theorem le_foldl_max_mem (xs : List ℚ) :
    ∀ (a x : ℚ), x ∈ xs → x ≤ xs.foldl max a := by
  induction xs with
  | nil => intro a x hx; cases hx
  | cons y ys ih =>
      intro a x hx
      rw [List.foldl_cons]
      rcases List.mem_cons.mp hx with h | h
      · subst h
        exact le_trans (le_max_right a x) (le_foldl_max_init ys (max a x))
      · exact ih (max a y) x h

theorem foldl_max_all_le (xs : List ℚ) :
    ∀ a : ℚ, (∀ y ∈ xs, y ≤ a) → xs.foldl max a = a := by
  induction xs with
  | nil => intro a _; rfl
  | cons y ys ih =>
      intro a h
      rw [List.foldl_cons, max_eq_left (h y (List.mem_cons_self y ys))]
      exact ih a (fun z hz => h z (List.mem_cons_of_mem y hz))

theorem colMin_le {xs : List ℚ} {x : ℚ} (hx : x ∈ xs) : colMin xs ≤ x := by
  cases xs with
  | nil => cases hx
  | cons y ys =>
      rw [colMin]
      rcases List.mem_cons.mp hx with h | h
      · subst h; exact foldl_min_le_init ys x
      · exact foldl_min_le_mem ys y x h

theorem le_colMax {xs : List ℚ} {x : ℚ} (hx : x ∈ xs) : x ≤ colMax xs := by
  cases xs with
  | nil => cases hx
  | cons y ys =>
      rw [colMax]
      rcases List.mem_cons.mp hx with h | h
      · subst h; exact le_foldl_max_init ys x
      · exact le_foldl_max_mem ys y x h

theorem normDivisor_pos {xs : List ℚ} {a b : ℚ}
    (ha : a ∈ xs) (hb : b ∈ xs) (hab : a ≠ b) : 0 < normDivisor xs := by
  have key : ∀ {c d : ℚ}, c ∈ xs → d ∈ xs → c < d → 0 < normDivisor xs := by
    intro c d hc hd hcd
    have h1 : colMin xs ≤ c := colMin_le hc
    have h2 : d - colMin xs ∈ shiftCol xs :=
      List.mem_map.mpr ⟨d, hd, rfl⟩
    have h3 : d - colMin xs ≤ colMax (shiftCol xs) := le_colMax h2
    rw [normDivisor]
    linarith
  rcases lt_or_gt_of_ne hab with h | h
  · exact key ha hb h
  · exact key hb ha h

theorem normalizeCol_bounds {xs : List ℚ} {a b : ℚ}
    (ha : a ∈ xs) (hb : b ∈ xs) (hab : a ≠ b) :
    ∀ v ∈ normalizeCol xs, 0 ≤ v ∧ v ≤ 1 := by
  intro v hv
  have hM : 0 < normDivisor xs := normDivisor_pos ha hb hab
  rw [normalizeCol, scaleCol] at hv
  obtain ⟨s, hs, rfl⟩ := List.mem_map.mp hv
  obtain ⟨w, hw, rfl⟩ := List.mem_map.mp hs
  rw [normDivisor] at hM
  constructor
  · have h1 : colMin xs ≤ w := colMin_le hw
    exact div_nonneg (by linarith) (le_of_lt hM)
  · rw [div_le_one hM]
    exact le_colMax (List.mem_map.mpr ⟨w, hw, rfl⟩)

theorem foldl_min_all_ge (xs : List ℚ) :
    ∀ a : ℚ, (∀ y ∈ xs, a ≤ y) → xs.foldl min a = a := by
  induction xs with
  | nil => intro a _; rfl
  | cons y ys ih =>
      intro a h
      rw [List.foldl_cons, min_eq_left (h y (List.mem_cons_self y ys))]
      exact ih a (fun z hz => h z (List.mem_cons_of_mem y hz))

theorem normDivisor_const {xs : List ℚ} (hne : xs ≠ [])
    (hconst : ∀ x ∈ xs, ∀ y ∈ xs, x = y) : normDivisor xs = 0 := by
  match xs, hne with
  | z :: zs, _ =>
      have hz : ∀ y ∈ zs, z ≤ y := fun y hy =>
        le_of_eq (hconst z (List.mem_cons_self z zs) y (List.mem_cons_of_mem z hy))
      have hmin : colMin (z :: zs) = z := by
        rw [colMin]
        exact foldl_min_all_ge zs z hz
      have hshift : shiftCol (z :: zs) = 0 :: zs.map (fun v => v - z) := by
        rw [shiftCol, hmin, List.map_cons, sub_self]
      rw [normDivisor, hshift, colMax]
      apply foldl_max_all_le
      intro y hy
      obtain ⟨w, hw, rfl⟩ := List.mem_map.mp hy
      have hwz : w = z := hconst w (List.mem_cons_of_mem z hw) z (List.mem_cons_self z zs)
      simp [hwz]

end Script

/-- A rational stand-in kernel used to instantiate the theorems on
concrete inputs. -/
def wKernel (p q : ℚ × ℚ) : ℚ :=
  1 / (1 + (p.1 - q.1) ^ 2 + (p.2 - q.2) ^ 2)

/-- A concrete two-level configuration. -/
def wCfgPartition : MRA.Config :=
  { locs := [(0, 0), (0, 1), (1, 0), (1, 1), (1/2, 1/2)]
    M := 1, J := 2, r0 := 1, critDepth := 2
    cov := wKernel
    obs := [some 1, none, some 0, none, some (1/2)]
    R := 1 / 10000 }

/-- A concrete single-node (M = 0) configuration. -/
def wCfgSingleNode : MRA.Config :=
  { locs := [(0, 0), (1, 1)]
    M := 0, J := 2, r0 := 1, critDepth := 1
    cov := wKernel
    obs := [some 1, none]
    R := 1 / 10 }

/-- A concrete configuration with a missing observation at index 1. -/
def wCfgMissing : MRA.Config :=
  { locs := [(0, 0), (0, 1)]
    M := 1, J := 2, r0 := 1, critDepth := 2
    cov := wKernel
    obs := [some 1, none]
    R := 1 / 10000 }

/-- A handle whose posterior pass has not completed. -/
def wHandleNotReady : MRA.Handle :=
  { cfg := wCfgMissing, state := MRA.TreeState.PriorsComputed }

/-- A handle in the Ready state. -/
def wHandleReady : MRA.Handle :=
  { cfg := wCfgMissing, state := MRA.TreeState.Ready }

/-- A concrete input file: a header row followed by two data rows with
distinct coordinates in both columns. -/
def wFile : List Script.Row :=
  [⟨0, 0, none, none⟩, ⟨0, 0, some 1, none⟩, ⟨1, 2, some 3, none⟩]

/-- C1: for every configuration with a valid branching factor, the
tree construction partitions the original location indices exactly:
concatenating every node's knot set and every leaf's residual set
gives back the index list 0..N-1 itself, so each index appears in
exactly one such set, none duplicated, none omitted. -/
theorem mra_tree_index_partition (cfg : MRA.Config) (hJ : 1 ≤ cfg.J) :
    MRA.allIndices (MRA.buildTree cfg) = List.range cfg.locs.length ∧
    ∀ i < cfg.locs.length, (MRA.allIndices (MRA.buildTree cfg)).count i = 1 := by
  have h := MRA.allIndices_buildRec cfg.J cfg.r0 hJ (MRA.effDepth cfg)
    (List.range cfg.locs.length)
  refine ⟨h, fun i hi => ?_⟩
  rw [MRA.buildTree, h]
  exact List.count_eq_one_of_mem (List.nodup_range _) (List.mem_range.mpr hi)

/-- Witness for mra_tree_index_partition at a concrete configuration. -/
theorem mra_tree_index_partition_witness :
    1 ≤ wCfgPartition.J ∧
    MRA.allIndices (MRA.buildTree wCfgPartition) =
      List.range wCfgPartition.locs.length ∧
    (MRA.allIndices (MRA.buildTree wCfgPartition)).count 0 = 1 :=
  ⟨by decide, (mra_tree_index_partition wCfgPartition (by decide)).1,
   (mra_tree_index_partition wCfgPartition (by decide)).2 0 (by decide)⟩

/-- C2: for a single-node tree (M = 0) the covariance implied by the
MRA tree is the exact covariance, hence the posterior mean and
variance returned by predict() coincide with the exact dense
Gaussian-process kriging solution under the same covariance function
and the same noise variance R (exactly, in the rational-arithmetic
embedding of the floating-point computation). -/
theorem mra_single_node_matches_dense_kriging (cfg : MRA.Config) (hM : cfg.M = 0) :
    MRA.posteriorMean cfg = MRA.denseMean cfg ∧
    MRA.posteriorVar cfg = MRA.denseVar cfg := by
  have heff : MRA.effDepth cfg = 0 := by simp [MRA.effDepth, hM]
  have hcov : MRA.mraCov cfg = MRA.exactCov cfg := by
    funext s t
    rw [MRA.mraCov, heff]
    simp only [MRA.mraCovRec, MRA.condMinus]
    ring
  constructor
  · rw [MRA.posteriorMean, MRA.denseMean, hcov]
  · rw [MRA.posteriorVar, MRA.denseVar, hcov]

/-- Witness for mra_single_node_matches_dense_kriging at a concrete
single-node configuration. -/
theorem mra_single_node_matches_dense_kriging_witness :
    wCfgSingleNode.M = 0 ∧
    MRA.posteriorMean wCfgSingleNode = MRA.denseMean wCfgSingleNode ∧
    MRA.posteriorVar wCfgSingleNode = MRA.denseVar wCfgSingleNode :=
  ⟨rfl, (mra_single_node_matches_dense_kriging wCfgSingleNode rfl).1,
   (mra_single_node_matches_dense_kriging wCfgSingleNode rfl).2⟩

/-- C3: on every input file, the executed trace of the script's main
block is exactly the straight-line prefix ending at the unconditional
sys.exit() call after the observations are displayed; the tree
construction, the predict() call and the saving of y-pred.npy are
never executed. -/
theorem script_exits_before_mra (file : List Script.Row) :
    Script.runTrace file =
      [Script.Stmt.seedRng, Script.Stmt.readFile, Script.Stmt.parseRows,
       Script.Stmt.normalizeLocs, Script.Stmt.computeGrid, Script.Stmt.centerObs,
       Script.Stmt.computeMask, Script.Stmt.dispObs, Script.Stmt.sysExit] ∧
    Script.Stmt.buildTree ∉ Script.runTrace file ∧
    Script.Stmt.callPredict ∉ Script.runTrace file ∧
    Script.Stmt.savePred ∉ Script.runTrace file := by
  have h : Script.runTrace file = Script.executedTrace Script.mainProgram := rfl
  rw [h]
  decide

/-- C4: the tree is constructed from exactly the eight-tuple of
construction inputs, and predict() on the resulting handle returns two
ordered sequences aligned to the input location order - the posterior
mean and the posterior standard deviation - with one entry per
original location. -/
theorem mratree_constructor_predict_interface (locs : List (ℚ × ℚ))
    (M J r0 critDepth : ℕ) (cov : (ℚ × ℚ) → (ℚ × ℚ) → ℚ)
    (obs : List (Option ℚ)) (R : ℚ) :
    (MRA.predictOut (MRA.mkMRATree locs M J r0 critDepth cov obs R).cfg).1.length
      = locs.length ∧
    (MRA.predictOut (MRA.mkMRATree locs M J r0 critDepth cov obs R).cfg).2.length
      = locs.length := by
  constructor <;>
    simp only [MRA.predictOut, MRA.posteriorMean, MRA.posteriorVar, MRA.mkMRATree,
      List.length_map, List.length_range]

/-- C5: building the tree twice from the same fixed inputs and calling
predict() on each yields identical outputs, and knot selection is
deterministic: the same node input indices always give the same knot
indices. -/
theorem mra_two_run_determinism (locs : List (ℚ × ℚ)) (M J r0 critDepth : ℕ)
    (cov : (ℚ × ℚ) → (ℚ × ℚ) → ℚ) (obs : List (Option ℚ)) (R : ℚ) :
    MRA.predictOut (MRA.mkMRATree locs M J r0 critDepth cov obs R).cfg =
      MRA.predictOut (MRA.mkMRATree locs M J r0 critDepth cov obs R).cfg ∧
    MRA.buildTree (MRA.mkMRATree locs M J r0 critDepth cov obs R).cfg =
      MRA.buildTree (MRA.mkMRATree locs M J r0 critDepth cov obs R).cfg ∧
    ∀ idxs : List ℕ, MRA.knotSelect r0 idxs = MRA.knotSelect r0 idxs :=
  ⟨rfl, rfl, fun _ => rfl⟩

/-- C6: whenever each coordinate column of the parsed locations takes
at least two distinct values, the script's normalization maps every
entry of both columns into the interval [0,1], and the grid dimensions
Nx and Ny are the counts of unique values of the first and second
normalized coordinate columns. -/
theorem script_coords_normalized_grid_dims (file : List Script.Row)
    (h0 : ∃ a ∈ (Script.locsOf file).map Prod.fst,
      ∃ b ∈ (Script.locsOf file).map Prod.fst, a ≠ b)
    (h1 : ∃ a ∈ (Script.locsOf file).map Prod.snd,
      ∃ b ∈ (Script.locsOf file).map Prod.snd, a ≠ b) :
    (∀ v ∈ Script.normCol0 file, 0 ≤ v ∧ v ≤ 1) ∧
    (∀ v ∈ Script.normCol1 file, 0 ≤ v ∧ v ≤ 1) ∧
    Script.NxOf file = Script.numUnique (Script.normCol0 file) ∧
    Script.NyOf file = Script.numUnique (Script.normCol1 file) := by
  obtain ⟨a0, ha0, b0, hb0, hab0⟩ := h0
  obtain ⟨a1, ha1, b1, hb1, hab1⟩ := h1
  exact ⟨Script.normalizeCol_bounds ha0 hb0 hab0,
    Script.normalizeCol_bounds ha1 hb1 hab1, rfl, rfl⟩

/-- Witness for script_coords_normalized_grid_dims at a concrete file. -/
theorem script_coords_normalized_grid_dims_witness :
    (∃ a ∈ (Script.locsOf wFile).map Prod.fst,
      ∃ b ∈ (Script.locsOf wFile).map Prod.fst, a ≠ b) ∧
    (∀ v ∈ Script.normCol0 wFile, 0 ≤ v ∧ v ≤ 1) :=
  ⟨by decide,
   (script_coords_normalized_grid_dims wFile (by decide) (by decide)).1⟩

/-- C7: missing observations are the sentinel none and the observed
mask is its isSome image, derived once; with a missing observation at
index i, that index is excluded from the observed set, yet predict()
still returns complete mean and standard-deviation sequences of full
length, and the mean entry at i is the kriging value computed from the
observed indices alone - interpolation through the covariance, with no
sentinel propagated. -/
theorem mra_missing_data_predictions (cfg : MRA.Config) (i : ℕ)
    (hi : i < cfg.locs.length) (hmiss : cfg.obs.getD i none = none) :
    (∀ file : List Script.Row,
      Script.obsIndsOf file = (Script.yObsOf file).map (fun o => o.isSome)) ∧
    i ∉ MRA.obsIdx cfg ∧
    (MRA.predictOut cfg).1.length = cfg.locs.length ∧
    (MRA.predictOut cfg).2.length = cfg.locs.length ∧
    (MRA.posteriorMean cfg)[i]? = some (MRA.krigMeanAt cfg (MRA.mraCov cfg) i) := by
  refine ⟨fun _ => rfl, ?_, ?_, ?_, ?_⟩
  · intro hmem
    rw [MRA.obsIdx, List.mem_filter] at hmem
    rw [hmiss] at hmem
    simp at hmem
  · simp only [MRA.predictOut, MRA.posteriorMean, List.length_map, List.length_range]
  · simp only [MRA.predictOut, MRA.posteriorVar, List.length_map, List.length_range]
  · rw [MRA.posteriorMean, List.getElem?_map, List.getElem?_range hi]
    rfl

/-- Witness for mra_missing_data_predictions at a concrete
configuration with a missing observation. -/
theorem mra_missing_data_predictions_witness :
    1 < wCfgMissing.locs.length ∧
    wCfgMissing.obs.getD 1 none = none ∧
    1 ∉ MRA.obsIdx wCfgMissing ∧
    (MRA.predictOut wCfgMissing).1.length = wCfgMissing.locs.length :=
  ⟨by decide, by decide,
   (mra_missing_data_predictions wCfgMissing 1 (by decide) (by decide)).2.1,
   (mra_missing_data_predictions wCfgMissing 1 (by decide) (by decide)).2.2.1⟩

/-- C8: predict() invoked on a handle whose state has not reached
Ready returns the PreconditionError immediately; in the Ready state it
succeeds and returns the complete mean and standard-deviation vectors
for all locations - never a partial result. -/
theorem predict_requires_ready_state (h : MRA.Handle) :
    (h.state ≠ MRA.TreeState.Ready →
      MRA.predictChecked h = Except.error MRA.MRAFailure.PreconditionError) ∧
    (h.state = MRA.TreeState.Ready →
      MRA.predictChecked h = Except.ok (MRA.predictOut h.cfg) ∧
      (MRA.predictOut h.cfg).1.length = h.cfg.locs.length ∧
      (MRA.predictOut h.cfg).2.length = h.cfg.locs.length) := by
  constructor
  · intro hs
    rw [MRA.predictChecked, if_neg hs]
  · intro hs
    refine ⟨by rw [MRA.predictChecked, if_pos hs], ?_, ?_⟩ <;>
      simp only [MRA.predictOut, MRA.posteriorMean, MRA.posteriorVar,
        List.length_map, List.length_range]

/-- Witness for predict_requires_ready_state on a not-ready and a
ready handle. -/
theorem predict_requires_ready_state_witness :
    MRA.predictChecked wHandleNotReady =
      Except.error MRA.MRAFailure.PreconditionError ∧
    MRA.predictChecked wHandleReady = Except.ok (MRA.predictOut wHandleReady.cfg) :=
  ⟨(predict_requires_ready_state wHandleNotReady).1 (by decide),
   ((predict_requires_ready_state wHandleReady).2 rfl).1⟩

/-- C9: the script always drops the first line of the CSV file as a
header, and stores each remaining row with its coordinate fields
swapped: entry i of locs is (second field, first field) of file row
i + 1. -/
theorem script_csv_swap_header_skip (file : List Script.Row) :
    Script.csvRows file = file.drop 1 ∧
    ∀ i : ℕ, (Script.locsOf file)[i]? =
      (file[i + 1]?).map (fun r => (r.f1, r.f0)) := by
  refine ⟨rfl, fun i => ?_⟩
  rw [Script.locsOf, Script.csvRows, List.getElem?_map, List.getElem?_drop]
  rw [Nat.add_comm]

/-- C10: the normalization divides by the maximum of the shifted
column with no guard: if the column holds two distinct values the
divisor is nonzero (the division is safe), and for a constant column
the divisor is exactly zero. -/
theorem script_norm_divisor_guard (xs : List ℚ) :
    ((∃ a ∈ xs, ∃ b ∈ xs, a ≠ b) → Script.normDivisor xs ≠ 0) ∧
    (xs ≠ [] → (∀ x ∈ xs, ∀ y ∈ xs, x = y) → Script.normDivisor xs = 0) := by
  constructor
  · rintro ⟨a, ha, b, hb, hab⟩
    exact ne_of_gt (Script.normDivisor_pos ha hb hab)
  · intro hne hconst
    exact Script.normDivisor_const hne hconst

/-- Witness for script_norm_divisor_guard on a two-valued and on a
constant column. -/
theorem script_norm_divisor_guard_witness :
    Script.normDivisor [(0 : ℚ), 2] ≠ 0 ∧ Script.normDivisor [(3 : ℚ), 3] = 0 :=
  ⟨(script_norm_divisor_guard [0, 2]).1 (by decide),
   (script_norm_divisor_guard [3, 3]).2 (by decide) (by decide)⟩
